import Mathlib

/-!
Shallow embedding of the core of src/clipboard_history.py (class ClipboardHistory):
the bounded, deduplicating clipboard-history store, its persistence, the image
blob store, and the retrieval-side operations (filter, navigate, commit, delete).

History entries in the Python code are dictionaries read with .get and optional
keys; we model them as a structure of optional fields.  Machine-level concerns
(tkinter widgets, threads, xclip subprocesses) are outside the embedding; the
pure decision logic of each method is translated faithfully.
-/

namespace ClipHist

/-- Model of one history record (a Python dict).  Fields that a record may or
may not carry are options; .get with a default becomes Option.getD. -/
structure Entry where
  type? : Option String := none
  text? : Option String := none
  timestamp? : Option String := none
  preview? : Option String := none
  image_path? : Option String := none
  preview_path? : Option String := none
  image_hash? : Option String := none
deriving DecidableEq, Repr

/-- Model of a Python collections.deque with maxlen: keeps only the last
maxlen elements of the given list (deque(lst, maxlen=m) and deque.append
both reduce to this on the list of contents). -/
def dequeOf (maxlen : Nat) (l : List Entry) : List Entry :=
  l.drop (l.length - maxlen)

/-- Model of Python str.strip() on the whitespace characters relevant here
(space, tab, carriage return, newline): drops leading and trailing
whitespace. -/
def pyStrip (s : String) : String :=
  String.mk (((s.toList.dropWhile Char.isWhitespace).reverse.dropWhile Char.isWhitespace).reverse)

/-- Preview built at line 223 of the source: text[:100] + ('...' if len(text) > 100 else '').
Python slices strings by code points, hence the toList/take. -/
def text_preview (text : String) : String :=
  String.mk (text.toList.take 100) ++ (if 100 < text.length then "..." else "")

/-- The text entry dict built by add_to_history (lines 219-224). -/
def mkTextEntry (text ts : String) : Entry :=
  { type? := some "text", text? := some text, timestamp? := some ts,
    preview? := some (text_preview text) }

/-- The adjacent-duplicate check of add_to_history (lines 214-217):
the last entry exists, has type 'text' and the same text. -/
def dedupTextSkip (h : List Entry) (text : String) : Bool :=
  match h.getLast? with
  | some last => decide (last.type? = some "text") && decide (last.text? = some text)
  | none => false

/-- add_to_history on a text payload (lines 204-227): reject empty or
whitespace-only text, skip when equal to the last entry, otherwise append
to the bounded deque.  The timestamp is passed in (datetime.now().isoformat()
in the source). -/
def add_to_history_text (max_history : Nat) (h : List Entry) (text ts : String) : List Entry :=
  if text = "" then h
  else if pyStrip text = "" then h
  else if dedupTextSkip h text then h
  else dequeOf max_history (h ++ [mkTextEntry text ts])

/-- A sequence of text appends, oldest first, each with its timestamp. -/
def addTexts (max_history : Nat) (h : List Entry) (items : List (String × String)) : List Entry :=
  items.foldl (fun acc p => add_to_history_text max_history acc p.1 p.2) h

/-- The dict returned by save_image_from_clipboard on success (lines 176-180). -/
structure ImageStoreResult where
  image_path : String
  preview_path : String
  image_hash : String
deriving DecidableEq, Repr

/-- The adjacent-duplicate check for images (lines 152-155): the last entry
exists, has type 'image' and the same content hash. -/
def dedupImageSkip (h : List Entry) (hash : String) : Bool :=
  match h.getLast? with
  | some last => decide (last.type? = some "image") && decide (last.image_hash? = some hash)
  | none => false

/-- save_image_from_clipboard (lines 142-183).  Parameters abstract the
environment: md5hex is the content-hash function (hashlib.md5(...).hexdigest()),
thumb_ok says whether PIL thumbnail generation succeeds (on failure the preview
path falls back to the full image path, lines 172-174).  Returns the optional
result dict together with the list of files written, in order; the duplicate
and empty-data cases write nothing.  PIL is assumed importable (without it the
whole image feature is dead code). -/
def save_image_from_clipboard (md5hex : List Nat → String) (thumb_ok : Bool)
    (images_dir : String) (h : List Entry) (image_data : List Nat) :
    Option ImageStoreResult × List String :=
  if image_data.isEmpty then (none, [])
  else
    let image_hash := md5hex image_data
    if dedupImageSkip h image_hash then (none, [])
    else
      let image_path := images_dir ++ "/" ++ image_hash ++ ".png"
      if thumb_ok then
        let preview_path := images_dir ++ "/" ++ image_hash ++ "_preview.png"
        (some ⟨image_path, preview_path, image_hash⟩, [image_path, preview_path])
      else
        (some ⟨image_path, image_path, image_hash⟩, [image_path])

/-- The image entry dict built by add_to_history (lines 191-198). -/
def mkImageEntry (info : ImageStoreResult) (ts : String) : Entry :=
  { type? := some "image", image_path? := some info.image_path,
    preview_path? := some info.preview_path, image_hash? := some info.image_hash,
    timestamp? := some ts, preview? := some "[Изображение]" }

/-- add_to_history on an image payload (lines 188-202): delegate to
save_image_from_clipboard; on None (duplicate or unusable data) leave the
history unchanged, otherwise append the image entry to the bounded deque.
Returns the new history and the files written. -/
def add_to_history_image (md5hex : List Nat → String) (thumb_ok : Bool)
    (images_dir : String) (max_history : Nat) (h : List Entry) (ts : String)
    (image_data : List Nat) : List Entry × List String :=
  match save_image_from_clipboard md5hex thumb_ok images_dir h image_data with
  | (some info, writes) => (dequeOf max_history (h ++ [mkImageEntry info ts]), writes)
  | (none, writes) => (h, writes)

/-- The durable JSON document written by save_history (lines 100-109):
the history list plus a last_update timestamp. -/
structure SavedFile where
  history : List Entry
  last_update : String
deriving DecidableEq, Repr

/-- save_history (lines 100-109): dump the whole history and a timestamp. -/
def save_history (h : List Entry) (now : String) : SavedFile :=
  ⟨h, now⟩

/-- Legacy normalization in load_history (lines 93-95): a record without a
'type' key gets type 'text'. -/
def normalizeType (e : Entry) : Entry :=
  if e.type? = none then { e with type? := some "text" } else e

/-- load_history on a successfully parsed file (lines 85-98): normalize legacy
records, then rebuild the deque with maxlen, which keeps only the last
max_history records. -/
def load_history (max_history : Nat) (f : SavedFile) : List Entry :=
  dequeOf max_history (f.history.map normalizeType)

/-- Model of Python str.lower() on one character, covering the alphabets this
program uses: ASCII letters and the Cyrillic letters of the fixed
'[Изображение]' placeholder. -/
def pyLowerChar (c : Char) : Char :=
  if 65 ≤ c.toNat ∧ c.toNat ≤ 90 then Char.ofNat (c.toNat + 32)
  else if 0x410 ≤ c.toNat ∧ c.toNat ≤ 0x42F then Char.ofNat (c.toNat + 0x20)
  else if c.toNat = 0x401 then Char.ofNat 0x451
  else c

/-- Model of Python str.lower() (character-wise on the alphabets used). -/
def pyLower (s : String) : String :=
  String.mk (s.toList.map pyLowerChar)

/-- Python substring membership, needle in hay, on character lists.  The empty
needle is a member of everything, as in Python. -/
def isSubList : List Char → List Char → Bool
  | needle, [] => needle.isEmpty
  | needle, b :: t => needle.isPrefixOf (b :: t) || isSubList needle t

/-- Python substring membership on strings: pyIn needle hay models
needle in hay. -/
def pyIn (needle hay : String) : Bool :=
  isSubList needle.toList hay.toList

/-- The per-entry match predicate of update_history_list (lines 515-520),
applied only when the query is non-empty; filter_lower is the lowercased
query. -/
def entryMatches (filter_lower : String) (e : Entry) : Bool :=
  pyIn filter_lower (pyLower (e.text?.getD "")) ||
  pyIn filter_lower (pyLower (e.preview?.getD "")) ||
  (decide (e.type? = some "image") && pyIn "изображение" filter_lower)

/-- The filtered history computed by update_history_list (lines 514-520):
the whole history for an empty query, otherwise the entries matching the
lowercased query.  The list stays in chronological order; the view then
displays it reversed (line 528). -/
def update_history_list_filtered (h : List Entry) (filter_text : String) : List Entry :=
  if filter_text = "" then h
  else h.filter (entryMatches (pyLower filter_text))

/-- The reverse-chronological view rows (reversed(filtered_history), line 528). -/
def view_rows (h : List Entry) (filter_text : String) : List Entry :=
  (update_history_list_filtered h filter_text).reverse

/-- Formalizes the claim's phrase, the query matches the fixed localized image
keyword: the lowercased query occurs in the lowercased placeholder
'[Изображение]' (an image entry's preview) or itself contains the keyword
'изображение' (the explicit type-image check of line 520). -/
def image_keyword_match (filter_lower : String) : Bool :=
  pyIn filter_lower (pyLower "[Изображение]") || pyIn "изображение" filter_lower

/-- navigate_list (lines 721-743): selected is the current selected_index
(None when the view never selected anything); len is the number of rows in
the current filtered view.  Empty view: no-op.  Otherwise move by direction
and clamp into [0, len-1]; select_item updates selected_index only when the
clamped index actually differs. -/
def navigate_list (len : Nat) (selected : Option Int) (direction : Int) : Option Int :=
  if len = 0 then selected
  else
    let current := selected.getD 0
    let n0 := current + direction
    let n1 := if n0 < 0 then 0 else if (len : Int) ≤ n0 then (len : Int) - 1 else n0
    if n1 ≠ current then some n1 else selected

/-- Payload a commit writes to the OS clipboard. -/
inductive ClipPayload where
  | text (s : String)
  | image (path : String)
deriving DecidableEq, Repr

/-- Externally visible outcome of insert_selected_by_index: what was written
to the clipboard (none when nothing), whether an auto-paste keystroke was
scheduled, and whether the retrieval window was closed. -/
structure CommitResult where
  clipboard_write : Option ClipPayload
  paste_scheduled : Bool
  window_closed : Bool
deriving DecidableEq, Repr

/-- insert_selected_by_index (lines 750-834).  The guard of lines 753-755
suppresses everything when the window just opened or less than 0.5 s
(wall-clock seconds, modelled as rationals) has passed since
window_open_time (set at line 296).  Otherwise the entry at view index
idx is filtered_history[-(idx+1)]; an image entry is committed only when its
path is set and the file exists, a text entry only when its text is
non-empty.  The history itself is never touched by a commit. -/
def insert_selected_by_index (window_just_opened : Bool) (window_open_time now : ℚ)
    (fileExists : String → Bool) (filtered : List Entry) (idx : Nat) : CommitResult :=
  if window_just_opened || decide (now - window_open_time < 1/2) then ⟨none, false, false⟩
  else if hlt : idx < filtered.length then
    let entry := filtered.get ⟨filtered.length - (idx + 1), by omega⟩
    if entry.type? = some "image" then
      match entry.image_path? with
      | some p => if p ≠ "" && fileExists p then ⟨some (ClipPayload.image p), true, true⟩
                  else ⟨none, false, false⟩
      | none => ⟨none, false, false⟩
    else
      let t := entry.text?.getD ""
      if t = "" then ⟨none, false, false⟩
      else ⟨some (ClipPayload.text t), true, true⟩
  else ⟨none, false, false⟩

/-- The blob/preview unlink attempts of delete_selected (lines 855-867):
the image path when set, non-empty and existing; then the preview path when
set, non-empty, existing and different from the image path.  Each unlink is
wrapped in try/except pass in the source, so no failure escapes; a
non-image entry deletes nothing. -/
def image_delete_attempts (fileExists : String → Bool) (e : Entry) : List String :=
  if e.type? = some "image" then
    (match e.image_path? with
     | some p => if p ≠ "" && fileExists p then [p] else []
     | none => []) ++
    (match e.preview_path? with
     | some q => if q ≠ "" && fileExists q && decide (e.image_path? ≠ some q) then [q] else []
     | none => [])
  else []

/-- delete_selected (lines 841-873): with a valid selection, take
filtered_history[-(idx+1)]; when that entry occurs in the history, attempt the
blob/preview unlinks, remove the first occurrence of the entry
(deque.remove uses value equality) and persist.  Returns the new history, the
unlink attempts and whether save_history was called. -/
def delete_selected (fileExists : String → Bool) (h filtered : List Entry)
    (selected : Option Nat) : List Entry × List String × Bool :=
  match selected with
  | none => (h, [], false)
  | some idx =>
    if hlt : idx < filtered.length then
      let entry := filtered.get ⟨filtered.length - (idx + 1), by omega⟩
      if entry ∈ h then
        (h.erase entry, image_delete_attempts fileExists entry, true)
      else (h, [], false)
    else (h, [], false)

/-- One append operation of the watcher: a text change or an image change
(add_to_history is called with exactly one of the two payloads). -/
inductive AppendOp where
  | text (t ts : String)
  | image (ts : String) (bytes : List Nat)

/-- Dispatch of add_to_history on one operation. -/
def applyAppend (md5hex : List Nat → String) (thumb_ok : Bool) (dir : String)
    (m : Nat) (h : List Entry) : AppendOp → List Entry
  | AppendOp.text t ts => add_to_history_text m h t ts
  | AppendOp.image ts bytes => (add_to_history_image md5hex thumb_ok dir m h ts bytes).1

/-- A whole sequence of append operations, oldest first. -/
def addOps (md5hex : List Nat → String) (thumb_ok : Bool) (dir : String)
    (m : Nat) (h : List Entry) (ops : List AppendOp) : List Entry :=
  ops.foldl (fun acc op => applyAppend md5hex thumb_ok dir m acc op) h

/-- The capped deque never holds more than maxlen elements. -/
theorem length_dequeOf_le (m : Nat) (l : List Entry) : (dequeOf m l).length ≤ m := by
  simp only [dequeOf, List.length_drop]
  omega

/-- A list short enough for the cap is kept whole. -/
theorem dequeOf_of_length_le (m : Nat) (l : List Entry) (h : l.length ≤ m) :
    dequeOf m l = l := by
  have h0 : l.length - m = 0 := by omega
  simp [dequeOf, h0]

/-- Dropping a strict prefix does not change the last element. -/
theorem getLast?_drop (l : List Entry) (n : Nat) (h : n < l.length) :
    (l.drop n).getLast? = l.getLast? := by
  induction l generalizing n with
  | nil => simp at h
  | cons a t ih =>
    cases n with
    | zero => simp
    | succ k =>
      have hk : k < t.length := by simpa using h
      rw [List.drop_succ_cons, ih k hk]
      cases t with
      | nil => simp at hk
      | cons b u => rw [List.getLast?_cons_cons]

/-- With a positive cap, capping a nonempty list keeps its last element. -/
theorem getLast?_dequeOf (m : Nat) (hm : 0 < m) (l : List Entry) (hl : l ≠ []) :
    (dequeOf m l).getLast? = l.getLast? := by
  have hlen : 0 < l.length := List.length_pos.mpr hl
  exact getLast?_drop l (l.length - m) (by omega)

/-- If appending to the capped deque gives back the old list, the new element
was already its last element. -/
theorem getLast?_of_dequeOf_append_eq (m : Nat) (l : List Entry) (e : Entry)
    (hm : 0 < m) (heq : dequeOf m (l ++ [e]) = l) : l.getLast? = some e := by
  by_cases hle : l.length + 1 ≤ m
  · exfalso
    rw [dequeOf_of_length_le m (l ++ [e]) (by simpa using hle)] at heq
    have := congrArg List.length heq
    simp at this
  · have hgl : (dequeOf m (l ++ [e])).getLast? = (l ++ [e]).getLast? :=
      getLast?_dequeOf m hm (l ++ [e]) (by simp)
    rw [heq, List.getLast?_concat] at hgl
    exact hgl

/-- A text append never pushes the history over the cap. -/
theorem length_add_to_history_text_le (m : Nat) (h : List Entry) (t ts : String)
    (hle : h.length ≤ m) : (add_to_history_text m h t ts).length ≤ m := by
  unfold add_to_history_text
  split
  · exact hle
  · split
    · exact hle
    · split
      · exact hle
      · exact length_dequeOf_le m _

/-- A whole sequence of text appends keeps the history within the cap. -/
theorem length_addTexts_le (m : Nat) (h : List Entry) (items : List (String × String))
    (hle : h.length ≤ m) : (addTexts m h items).length ≤ m := by
  induction items generalizing h with
  | nil => exact hle
  | cons p rest ih =>
    rw [addTexts, List.foldl_cons]
    exact ih _ (length_add_to_history_text_le m h p.1 p.2 hle)

/-- An image append never pushes the history over the cap. -/
theorem length_add_to_history_image_le (md5hex : List Nat → String) (thumb_ok : Bool)
    (dir : String) (m : Nat) (h : List Entry) (ts : String) (bytes : List Nat)
    (hle : h.length ≤ m) :
    ((add_to_history_image md5hex thumb_ok dir m h ts bytes).1).length ≤ m := by
  unfold add_to_history_image
  rcases hsave : save_image_from_clipboard md5hex thumb_ok dir h bytes with ⟨o, w⟩
  cases o with
  | none => exact hle
  | some info => exact length_dequeOf_le m _

/-- One append of either kind keeps the history within the cap. -/
theorem length_applyAppend_le (md5hex : List Nat → String) (thumb_ok : Bool)
    (dir : String) (m : Nat) (h : List Entry) (op : AppendOp) (hle : h.length ≤ m) :
    (applyAppend md5hex thumb_ok dir m h op).length ≤ m := by
  cases op with
  | text t ts => exact length_add_to_history_text_le m h t ts hle
  | image ts bytes => exact length_add_to_history_image_le md5hex thumb_ok dir m h ts bytes hle

/-- A whole sequence of appends of either kind keeps the history within the cap. -/
theorem length_addOps_le (md5hex : List Nat → String) (thumb_ok : Bool)
    (dir : String) (m : Nat) (h : List Entry) (ops : List AppendOp)
    (hle : h.length ≤ m) :
    (addOps md5hex thumb_ok dir m h ops).length ≤ m := by
  induction ops generalizing h with
  | nil => exact hle
  | cons op rest ih =>
    rw [addOps, List.foldl_cons]
    exact ih _ (length_applyAppend_le md5hex thumb_ok dir m h op hle)

/-- When the last entry is already the same image, add_to_history is a no-op
and writes nothing. -/
theorem add_to_history_image_of_skip (md5hex : List Nat → String) (thumb_ok : Bool)
    (dir : String) (m : Nat) (h : List Entry) (ts : String) (bytes : List Nat)
    (hskip : dedupImageSkip h (md5hex bytes) = true) :
    add_to_history_image md5hex thumb_ok dir m h ts bytes = (h, []) := by
  by_cases hbe : bytes.isEmpty
  · simp [add_to_history_image, save_image_from_clipboard, hbe]
  · simp [add_to_history_image, save_image_from_clipboard, hbe, hskip]

/-- After an image append succeeds or is skipped as a duplicate, the history's
last entry carries the hash of the appended bytes. -/
theorem dedupImageSkip_after_add (md5hex : List Nat → String) (thumb_ok : Bool)
    (dir : String) (m : Nat) (hm : 0 < m) (h : List Entry) (ts : String)
    (bytes : List Nat) (hbytes : bytes ≠ []) :
    dedupImageSkip ((add_to_history_image md5hex thumb_ok dir m h ts bytes).1)
      (md5hex bytes) = true := by
  have hbe : bytes.isEmpty = false := by
    cases bytes with
    | nil => exact absurd rfl hbytes
    | cons a t => rfl
  by_cases hskip : dedupImageSkip h (md5hex bytes) = true
  · rw [add_to_history_image_of_skip md5hex thumb_ok dir m h ts bytes hskip]
    exact hskip
  · have hskipf : dedupImageSkip h (md5hex bytes) = false := by
      simpa using hskip
    have hlast : ∀ (e : Entry), e.type? = some "image" →
        e.image_hash? = some (md5hex bytes) →
        dedupImageSkip (dequeOf m (h ++ [e])) (md5hex bytes) = true := by
      intro e hty hha
      have : (dequeOf m (h ++ [e])).getLast? = some e := by
        rw [getLast?_dequeOf m hm (h ++ [e]) (by simp), List.getLast?_concat]
      simp [dedupImageSkip, this, hty, hha]
    cases thumb_ok with
    | true =>
      simp only [add_to_history_image, save_image_from_clipboard, hbe, hskipf,
        Bool.false_eq_true, if_false, if_true]
      exact hlast _ rfl rfl
    | false =>
      simp only [add_to_history_image, save_image_from_clipboard, hbe, hskipf,
        Bool.false_eq_true, if_false, if_true]
      exact hlast _ rfl rfl

/-- After a non-blank text append, the history's last entry is a text entry
carrying exactly that text (whether the append was accepted or skipped as an
adjacent duplicate). -/
theorem dedupTextSkip_after_add (m : Nat) (hm : 0 < m) (h : List Entry)
    (text ts : String) (htext : pyStrip text ≠ "") :
    dedupTextSkip (add_to_history_text m h text ts) text = true := by
  have hne : text ≠ "" := fun h0 => htext (by rw [h0]; rfl)
  by_cases hskip : dedupTextSkip h text = true
  · rw [show add_to_history_text m h text ts = h from by
      simp [add_to_history_text, hskip]]
    exact hskip
  · have hskipf : dedupTextSkip h text = false := by simpa using hskip
    rw [show add_to_history_text m h text ts = dequeOf m (h ++ [mkTextEntry text ts]) from by
      simp [add_to_history_text, hne, htext, hskipf]]
    have hl : (dequeOf m (h ++ [mkTextEntry text ts])).getLast? = some (mkTextEntry text ts) := by
      rw [getLast?_dequeOf m hm _ (by simp), List.getLast?_concat]
    unfold dedupTextSkip
    rw [hl]
    simp [mkTextEntry]

/-- C1: over any sequence of append operations (text or image) the history
length never exceeds max_history; appending any entry to a full history
drops exactly the oldest entry (FIFO), in particular an accepted text append
into a full history; and with capacity 2, appending A, B, C leaves [B, C]. -/
theorem history_capacity_and_fifo (md5hex : List Nat → String) (thumb_ok : Bool)
    (dir : String) (m : Nat) (h : List Entry) (ops : List AppendOp)
    (hm : 0 < m) (hle : h.length ≤ m) :
    (addOps md5hex thumb_ok dir m h ops).length ≤ m ∧
    (∀ (h2 : List Entry) (e : Entry), h2.length = m →
       dequeOf m (h2 ++ [e]) = h2.tail ++ [e]) ∧
    (∀ (h2 : List Entry) (text ts : String), h2.length = m → pyStrip text ≠ "" →
       dedupTextSkip h2 text = false →
       add_to_history_text m h2 text ts = h2.tail ++ [mkTextEntry text ts]) ∧
    addTexts 2 [] [("A","t1"),("B","t2"),("C","t3")] =
      [mkTextEntry "B" "t2", mkTextEntry "C" "t3"] := by
  have hevict : ∀ (h2 : List Entry) (e : Entry), h2.length = m →
      dequeOf m (h2 ++ [e]) = h2.tail ++ [e] := by
    intro h2 e hfull
    unfold dequeOf
    have hlen : (h2 ++ [e]).length = m + 1 := by simp [hfull]
    rw [hlen]
    have h1 : m + 1 - m = 1 := by omega
    rw [h1, List.drop_append_of_le_length (by omega), List.drop_one]
  refine ⟨length_addOps_le md5hex thumb_ok dir m h ops hle, hevict, ?_, by decide⟩
  intro h2 text ts hfull hstrip hskip
  have hne : text ≠ "" := by
    intro h0
    exact hstrip (by rw [h0]; rfl)
  unfold add_to_history_text
  rw [if_neg hne, if_neg hstrip, if_neg (by simp [hskip])]
  exact hevict h2 (mkTextEntry text ts) hfull

/-- Witness for C1 at capacity 2: a mixed text/image append sequence stays
within the cap, and appending Z to the full history [X, Y] evicts X,
giving [Y, Z]. -/
theorem history_capacity_and_fifo_witness :
    (addOps (fun _ => "hh") true "/d" 2 []
      [AppendOp.text "A" "t1", AppendOp.image "t2" [1], AppendOp.text "C" "t3"]).length ≤ 2 ∧
    add_to_history_text 2 [mkTextEntry "X" "t0", mkTextEntry "Y" "t0"] "Z" "t9" =
      [mkTextEntry "Y" "t0", mkTextEntry "Z" "t9"] := by
  constructor
  · exact (history_capacity_and_fifo (fun _ => "hh") true "/d" 2 []
      [AppendOp.text "A" "t1", AppendOp.image "t2" [1], AppendOp.text "C" "t3"]
      (by decide) (by decide)).1
  · have h2 := (history_capacity_and_fifo (fun _ => "hh") true "/d" 2 [] []
      (by decide) (by decide)).2.2.1
      [mkTextEntry "X" "t0", mkTextEntry "Y" "t0"] "Z" "t9" (by decide) (by decide) (by decide)
    exact h2.trans (by decide)

/-- C3: a text whose strip is empty creates no entry and leaves the history
unchanged; otherwise either the adjacent-duplicate skip fires or exactly the
entry mkTextEntry text ts is appended, whose text field is the original
string and whose preview is the first 100 characters followed by '...'
exactly when the text is longer than 100 characters, so the preview holds at
most 103 characters. -/
theorem add_text_entry_shape (m : Nat) (h : List Entry) (text ts : String) :
    (pyStrip text = "" → add_to_history_text m h text ts = h) ∧
    (pyStrip text ≠ "" →
       (add_to_history_text m h text ts = h ∧ dedupTextSkip h text = true) ∨
       add_to_history_text m h text ts = dequeOf m (h ++ [mkTextEntry text ts])) ∧
    (mkTextEntry text ts).text? = some text ∧
    (mkTextEntry text ts).preview? = some (text_preview text) ∧
    text_preview text =
      String.mk (text.toList.take 100) ++ (if 100 < text.length then "..." else "") ∧
    (text_preview text).length ≤ 103 := by
  refine ⟨?_, ?_, rfl, rfl, rfl, ?_⟩
  · intro hstrip
    by_cases hne : text = ""
    · simp [add_to_history_text, hne]
    · simp [add_to_history_text, hne, hstrip]
  · intro hstrip
    have hne : text ≠ "" := fun h0 => hstrip (by rw [h0]; rfl)
    by_cases hskip : dedupTextSkip h text = true
    · exact Or.inl ⟨by simp [add_to_history_text, hne, hstrip, hskip], hskip⟩
    · exact Or.inr (by simp [add_to_history_text, hne, hstrip, hskip])
  · unfold text_preview
    rw [String.length_append]
    have h1 : (String.mk (text.toList.take 100)).length ≤ 100 := by
      show (text.toList.take 100).length ≤ 100
      rw [List.length_take]
      exact Nat.min_le_left _ _
    have h2 : (if 100 < text.length then ("..." : String) else "").length ≤ 3 := by
      split <;> decide
    omega

/-- Witness for C3: whitespace-only text is rejected, and a short text's
preview fits in 103 characters. -/
theorem add_text_entry_shape_witness :
    add_to_history_text 100 [] "   " "t" = [] ∧ (text_preview "A").length ≤ 103 := by
  constructor
  · exact (add_text_entry_shape 100 [] "   " "t").1 (by decide)
  · exact (add_text_entry_shape 100 [] "A" "t").2.2.2.2.2

/-- C5: loading the file written by save gives the history back
field-for-field, up to the load-time normalization that gives records
without a type field the type text; histories whose records all carry a
type (all records the program itself writes do) come back unchanged. -/
theorem load_after_save (m : Nat) (h : List Entry) (now : String)
    (hle : h.length ≤ m) :
    load_history m (save_history h now) = h.map normalizeType ∧
    ((∀ e ∈ h, e.type? ≠ none) → load_history m (save_history h now) = h) := by
  have h1 : load_history m (save_history h now) = h.map normalizeType := by
    unfold load_history save_history
    exact dequeOf_of_length_le m _ (by rw [List.length_map]; exact hle)
  refine ⟨h1, fun hall => ?_⟩
  rw [h1]
  have hid : ∀ e ∈ h, normalizeType e = id e := by
    intro e he
    unfold normalizeType
    rw [if_neg (hall e he)]
    rfl
  rw [List.map_congr_left hid, List.map_id]

/-- Witness for C5: a one-entry history survives a save/load round trip. -/
theorem load_after_save_witness :
    load_history 100 (save_history [mkTextEntry "A" "t"] "now") = [mkTextEntry "A" "t"] :=
  (load_after_save 100 [mkTextEntry "A" "t"] "now" (by decide)).2 (by decide)

/-- C8: any commit request arriving less than 0.5 s after the retrieval
window opened is suppressed entirely: nothing is written to the clipboard,
no paste keystroke is scheduled, and the window stays as it is (the history
is not touched by insert_selected_by_index at all). -/
theorem guard_window_suppresses_commit (wjo : Bool) (t0 now : ℚ)
    (fe : String → Bool) (filtered : List Entry) (idx : Nat)
    (hguard : now - t0 < 1/2) :
    insert_selected_by_index wjo t0 now fe filtered idx =
      { clipboard_write := none, paste_scheduled := false, window_closed := false } := by
  unfold insert_selected_by_index
  rw [if_pos (by simp only [Bool.or_eq_true, decide_eq_true_eq]; exact Or.inr hguard)]

/-- Witness for C8: a commit 100 ms after the window opened does nothing. -/
theorem guard_window_suppresses_commit_witness :
    insert_selected_by_index false 0 (1/10) (fun _ => true) [mkTextEntry "A" "t"] 0 =
      { clipboard_write := none, paste_scheduled := false, window_closed := false } :=
  guard_window_suppresses_commit false 0 (1/10) (fun _ => true) [mkTextEntry "A" "t"] 0
    (by norm_num)

/-- C10: a load never returns more than max_history entries, and when the
stored list is at least that long, load keeps exactly the last max_history
records (normalized), dropping the oldest. -/
theorem load_truncates_to_last (m : Nat) (f : SavedFile) :
    (load_history m f).length ≤ m ∧
    (m ≤ f.history.length →
       load_history m f = (f.history.drop (f.history.length - m)).map normalizeType) := by
  refine ⟨length_dequeOf_le m _, fun hm => ?_⟩
  unfold load_history dequeOf
  rw [List.length_map, ← List.map_drop]

/-- Witness for C10: a three-record file loaded with capacity 2 keeps the
last two records. -/
theorem load_truncates_to_last_witness :
    load_history 2 ⟨[mkTextEntry "A" "t1", mkTextEntry "B" "t2", mkTextEntry "C" "t3"], "now"⟩ =
      [mkTextEntry "B" "t2", mkTextEntry "C" "t3"] := by
  have h2 := (load_truncates_to_last 2
    ⟨[mkTextEntry "A" "t1", mkTextEntry "B" "t2", mkTextEntry "C" "t3"], "now"⟩).2 (by decide)
  exact h2.trans (by decide)

/-- C2: with a positive capacity, a non-blank text append leaves the history
unchanged exactly when the last entry is a text entry with the same text, and
a non-empty image append leaves it unchanged exactly when the last entry is an
image entry with the same content hash; only the last entry matters, so the
A, B, A example keeps the non-adjacent duplicate while A, A collapses to A. -/
theorem dedup_adjacent_only (m : Nat) (hm : 0 < m) (h : List Entry)
    (text ts : String) (htext : pyStrip text ≠ "")
    (md5hex : List Nat → String) (thumb_ok : Bool) (dir ts2 : String)
    (bytes : List Nat) (hbytes : bytes ≠ []) :
    (add_to_history_text m h text ts = h ↔ dedupTextSkip h text = true) ∧
    ((add_to_history_image md5hex thumb_ok dir m h ts2 bytes).1 = h ↔
       dedupImageSkip h (md5hex bytes) = true) ∧
    addTexts 100 [] [("A","u1"),("B","u2"),("A","u3")] =
      [mkTextEntry "A" "u1", mkTextEntry "B" "u2", mkTextEntry "A" "u3"] ∧
    addTexts 100 [] [("A","v1"),("A","v2")] = [mkTextEntry "A" "v1"] := by
  refine ⟨⟨?_, ?_⟩, ⟨?_, ?_⟩, by decide, by decide⟩
  · intro heq
    have hlast := dedupTextSkip_after_add m hm h text ts htext
    rwa [heq] at hlast
  · intro hskip
    simp [add_to_history_text, hskip]
  · intro heq
    have hlast := dedupImageSkip_after_add md5hex thumb_ok dir m hm h ts2 bytes hbytes
    rwa [heq] at hlast
  · intro hskip
    rw [add_to_history_image_of_skip md5hex thumb_ok dir m h ts2 bytes hskip]

/-- Witness for C2: a repeated adjacent text and a repeated adjacent image are
both skipped, leaving the one-entry history as it was. -/
theorem dedup_adjacent_only_witness :
    add_to_history_text 100 [mkTextEntry "A" "t1"] "A" "t2" = [mkTextEntry "A" "t1"] ∧
    (add_to_history_image (fun _ => "hh") true "/d" 100
        [mkImageEntry ⟨"/d/hh.png", "/d/hh_preview.png", "hh"⟩ "t1"] "t2" [1]).1 =
      [mkImageEntry ⟨"/d/hh.png", "/d/hh_preview.png", "hh"⟩ "t1"] := by
  constructor
  · exact (dedup_adjacent_only 100 (by decide) [mkTextEntry "A" "t1"] "A" "t2" (by decide)
      (fun _ => "hh") true "/d" "t2" [1] (by decide)).1.mpr (by decide)
  · exact (dedup_adjacent_only 100 (by decide)
      [mkImageEntry ⟨"/d/hh.png", "/d/hh_preview.png", "hh"⟩ "t1"] "A" "t2" (by decide)
      (fun _ => "hh") true "/d" "t2" [1] (by decide)).2.1.mpr (by decide)

/-- C4: storing image bytes whose hash matches the current last image entry
returns the duplicate sentinel (None) with no file written, and the append is
a no-op; storing the same bytes twice in a row writes files only on the
first call, the second call writing nothing and changing nothing. -/
theorem image_store_no_rewrite (md5hex : List Nat → String) (thumb_ok : Bool)
    (dir : String) (m : Nat) (hm : 0 < m) (h : List Entry) (ts1 ts2 : String)
    (bytes : List Nat) (hbytes : bytes ≠ []) :
    (dedupImageSkip h (md5hex bytes) = true →
       save_image_from_clipboard md5hex thumb_ok dir h bytes = (none, []) ∧
       add_to_history_image md5hex thumb_ok dir m h ts1 bytes = (h, [])) ∧
    add_to_history_image md5hex thumb_ok dir m
        (add_to_history_image md5hex thumb_ok dir m h ts1 bytes).1 ts2 bytes =
      ((add_to_history_image md5hex thumb_ok dir m h ts1 bytes).1, []) := by
  have hbe : bytes.isEmpty = false := by
    cases bytes with
    | nil => exact absurd rfl hbytes
    | cons a t => rfl
  constructor
  · intro hskip
    exact ⟨by simp [save_image_from_clipboard, hbe, hskip],
           add_to_history_image_of_skip md5hex thumb_ok dir m h ts1 bytes hskip⟩
  · exact add_to_history_image_of_skip md5hex thumb_ok dir m _ ts2 bytes
      (dedupImageSkip_after_add md5hex thumb_ok dir m hm h ts1 bytes hbytes)

/-- Witness for C4: a store against a matching last image entry is the
duplicate sentinel with no writes, and two identical consecutive stores leave
the second one writing nothing. -/
theorem image_store_no_rewrite_witness :
    save_image_from_clipboard (fun _ => "hh") true "/d"
      [mkImageEntry ⟨"/d/hh.png", "/d/hh_preview.png", "hh"⟩ "t0"] [1, 2] = (none, []) ∧
    add_to_history_image (fun _ => "hh") true "/d" 100
        ((add_to_history_image (fun _ => "hh") true "/d" 100 [] "t1" [1, 2]).1) "t2" [1, 2] =
      ((add_to_history_image (fun _ => "hh") true "/d" 100 [] "t1" [1, 2]).1, []) := by
  constructor
  · exact ((image_store_no_rewrite (fun _ => "hh") true "/d" 100 (by decide)
      [mkImageEntry ⟨"/d/hh.png", "/d/hh_preview.png", "hh"⟩ "t0"] "t1" "t2" [1, 2]
      (by decide)).1 (by decide)).1
  · exact (image_store_no_rewrite (fun _ => "hh") true "/d" 100 (by decide) [] "t1" "t2"
      [1, 2] (by decide)).2

/-- C6: the empty query shows the whole history reversed (most recent first,
same count); any query yields a subsequence of the history, hence the view
stays reverse-chronological; for a non-empty query a text entry is kept
exactly when the lowercased query occurs in its lowercased text or preview,
and an image entry exactly when the query matches the localized image
keyword. -/
theorem filter_query_spec (h : List Entry) (q : String) :
    (view_rows h "" = h.reverse ∧ (view_rows h "").length = h.length) ∧
    (update_history_list_filtered h q).Sublist h ∧
    (q ≠ "" → ∀ text ts, mkTextEntry text ts ∈ update_history_list_filtered h q ↔
       mkTextEntry text ts ∈ h ∧
         (pyIn (pyLower q) (pyLower text) = true ∨
          pyIn (pyLower q) (pyLower (text_preview text)) = true)) ∧
    (q ≠ "" → ∀ info ts, mkImageEntry info ts ∈ update_history_list_filtered h q ↔
       mkImageEntry info ts ∈ h ∧ image_keyword_match (pyLower q) = true) := by
  refine ⟨⟨by simp [view_rows, update_history_list_filtered], by
    simp [view_rows, update_history_list_filtered]⟩, ?_, ?_, ?_⟩
  · unfold update_history_list_filtered
    by_cases hq : q = ""
    · rw [if_pos hq]
    · rw [if_neg hq]
      exact List.filter_sublist h
  · intro hq text ts
    have hmatch : entryMatches (pyLower q) (mkTextEntry text ts) =
        (pyIn (pyLower q) (pyLower text) || pyIn (pyLower q) (pyLower (text_preview text))) := by
      simp [entryMatches, mkTextEntry]
    rw [update_history_list_filtered, if_neg hq, List.mem_filter, hmatch, Bool.or_eq_true]
  · intro hq info ts
    have hql : (pyLower q).toList ≠ [] := by
      intro h0
      exact hq (by
        have h1 : q.toList = [] := List.map_eq_nil_iff.mp h0
        cases q with
        | mk d => cases h1; rfl)
    have h0 : pyIn (pyLower q) (pyLower "") = false := by
      show isSubList (pyLower q).toList [] = false
      rw [isSubList]
      cases hl : (pyLower q).toList with
      | nil => exact absurd hl hql
      | cons a t => rfl
    have hmatch : entryMatches (pyLower q) (mkImageEntry info ts) =
        image_keyword_match (pyLower q) := by
      simp only [entryMatches, mkImageEntry, Option.getD_some, Option.getD_none,
        image_keyword_match]
      rw [h0]
      simp
    rw [update_history_list_filtered, if_neg hq, List.mem_filter, hmatch]

/-- Witness for C6: on a two-entry history the query hell keeps only the
Hello text entry, the query изобр keeps only the image entry, and the empty
query shows both, newest first. -/
theorem filter_query_spec_witness :
    (mkTextEntry "Hello" "t1" ∈ update_history_list_filtered
      [mkTextEntry "Hello" "t1", mkImageEntry ⟨"/d/h.png", "/d/hp.png", "h"⟩ "t2"] "hell") ∧
    (mkImageEntry ⟨"/d/h.png", "/d/hp.png", "h"⟩ "t2" ∈ update_history_list_filtered
      [mkTextEntry "Hello" "t1", mkImageEntry ⟨"/d/h.png", "/d/hp.png", "h"⟩ "t2"] "изобр") ∧
    view_rows [mkTextEntry "Hello" "t1", mkImageEntry ⟨"/d/h.png", "/d/hp.png", "h"⟩ "t2"] "" =
      [mkImageEntry ⟨"/d/h.png", "/d/hp.png", "h"⟩ "t2", mkTextEntry "Hello" "t1"] := by
  refine ⟨?_, ?_, ?_⟩
  · exact ((filter_query_spec
      [mkTextEntry "Hello" "t1", mkImageEntry ⟨"/d/h.png", "/d/hp.png", "h"⟩ "t2"]
      "hell").2.2.1 (by decide) "Hello" "t1").mpr (by decide)
  · exact ((filter_query_spec
      [mkTextEntry "Hello" "t1", mkImageEntry ⟨"/d/h.png", "/d/hp.png", "h"⟩ "t2"]
      "изобр").2.2.2 (by decide) ⟨"/d/h.png", "/d/hp.png", "h"⟩ "t2").mpr (by decide)
  · exact ((filter_query_spec
      [mkTextEntry "Hello" "t1", mkImageEntry ⟨"/d/h.png", "/d/hp.png", "h"⟩ "t2"]
      "").1.1).trans (by decide)

/-- C7: navigation with direction plus or minus one is a no-op on an empty
view; from any in-range cursor it lands on an in-range cursor, moves by at
most one step (j - i is 0 or the direction), and clamps at both ends instead
of wrapping. -/
theorem navigate_list_clamped (len : Nat) (sel : Option Int) (dir : Int) (i : Int)
    (hdir : dir = 1 ∨ dir = -1) :
    (len = 0 → navigate_list len sel dir = sel) ∧
    (sel = some i → 0 ≤ i → i < (len : Int) →
       ∃ j, navigate_list len sel dir = some j ∧ 0 ≤ j ∧ j < (len : Int) ∧
         (j - i = 0 ∨ j - i = dir) ∧
         (i = 0 → dir = -1 → j = 0) ∧
         (i = (len : Int) - 1 → dir = 1 → j = (len : Int) - 1)) := by
  constructor
  · intro h0
    simp [navigate_list, h0]
  · intro hsel h0 hlt
    subst hsel
    have hlen : ¬len = 0 := by omega
    simp only [navigate_list, hlen, if_false, Option.getD_some]
    split_ifs with h1 h2 h3 h4 h5 <;>
      exact ⟨_, rfl, by omega, by omega, by omega, by omega, by omega⟩

/-- Witness for C7: at the bottom end of a three-row view, moving further
down stays at index 2, and on an empty view navigation is a no-op. -/
theorem navigate_list_clamped_witness :
    navigate_list 3 (some 2) 1 = some 2 ∧ navigate_list 0 none 1 = none := by
  constructor
  · obtain ⟨j, hj, _, _, _, _, h6⟩ :=
      (navigate_list_clamped 3 (some 2) 1 2 (Or.inl rfl)).2 rfl (by decide) (by decide)
    have hj2 : j = 2 := by
      have h7 := h6 (by decide) rfl
      omega
    rw [hj, hj2]
  · exact (navigate_list_clamped 0 none 1 0 (Or.inl rfl)).1 rfl

/-- Unfolding of delete_selected at a valid index. -/
theorem delete_selected_some (fe : String → Bool) (h filtered : List Entry) (idx : Nat)
    (hidx : idx < filtered.length)
    (hlt2 : filtered.length - (idx + 1) < filtered.length) :
    delete_selected fe h filtered (some idx) =
      (if filtered.get ⟨filtered.length - (idx + 1), hlt2⟩ ∈ h then
        (h.erase (filtered.get ⟨filtered.length - (idx + 1), hlt2⟩),
         image_delete_attempts fe (filtered.get ⟨filtered.length - (idx + 1), hlt2⟩), true)
       else (h, [], false)) := by
  simp only [delete_selected]
  rw [dif_pos hidx]

/-- C9: when the selected view row is the entry e and e does not occur
earlier in the history, delete_selected removes exactly that occurrence,
leaving every other entry in place and in order, persists, and attempts
file deletions only for an image entry and only on that entry's own blob
and preview paths; the removal outcome is the same for every fileExists
predicate, so unlink failures are swallowed, never surfaced. -/
theorem delete_selected_removes (fe : String → Bool) (filtered pre post : List Entry)
    (e : Entry) (idx : Nat) (hlt2 : filtered.length - (idx + 1) < filtered.length)
    (hidx : idx < filtered.length)
    (he : filtered.get ⟨filtered.length - (idx + 1), hlt2⟩ = e)
    (hpre : e ∉ pre) :
    delete_selected fe (pre ++ e :: post) filtered (some idx) =
      (pre ++ post, image_delete_attempts fe e, true) ∧
    (e.type? ≠ some "image" → image_delete_attempts fe e = []) ∧
    (∀ p ∈ image_delete_attempts fe e, e.image_path? = some p ∨ e.preview_path? = some p) := by
  refine ⟨?_, ?_, ?_⟩
  · rw [delete_selected_some fe (pre ++ e :: post) filtered idx hidx hlt2, he,
      if_pos (by simp)]
    have herase : (pre ++ e :: post).erase e = pre ++ post := by
      rw [List.erase_append_right _ hpre, List.erase_cons_head]
    rw [herase]
  · intro hne
    unfold image_delete_attempts
    rw [if_neg hne]
  · intro p hp
    unfold image_delete_attempts at hp
    by_cases himg : e.type? = some "image"
    · rw [if_pos himg, List.mem_append] at hp
      rcases hp with hp | hp
      · cases hip : e.image_path? with
        | none => rw [hip] at hp; simp at hp
        | some pp =>
          rw [hip] at hp
          have h2 : p ∈ (if (decide (pp ≠ "") && fe pp) = true then [pp] else []) := hp
          by_cases hc : (decide (pp ≠ "") && fe pp) = true
          · rw [if_pos hc, List.mem_singleton] at h2
            exact Or.inl (by rw [h2])
          · rw [if_neg hc] at h2
            simp at h2
      · cases hpp : e.preview_path? with
        | none => rw [hpp] at hp; simp at hp
        | some pp =>
          rw [hpp] at hp
          have h2 : p ∈ (if (decide (pp ≠ "") && fe pp &&
              decide (e.image_path? ≠ some pp)) = true then [pp] else []) := hp
          by_cases hc : (decide (pp ≠ "") && fe pp && decide (e.image_path? ≠ some pp)) = true
          · rw [if_pos hc, List.mem_singleton] at h2
            exact Or.inr (by rw [h2])
          · rw [if_neg hc] at h2
            simp at h2
    · rw [if_neg himg] at hp
      simp at hp

/-- Witness for C9: deleting the selected top row (index 0, which maps to the
last entry B) of a two-entry history removes exactly B and persists. -/
theorem delete_selected_removes_witness :
    delete_selected (fun _ => true) [mkTextEntry "A" "t1", mkTextEntry "B" "t2"]
      [mkTextEntry "A" "t1", mkTextEntry "B" "t2"] (some 0) =
      ([mkTextEntry "A" "t1"], [], true) := by
  have h3 := (delete_selected_removes (fun _ => true)
    [mkTextEntry "A" "t1", mkTextEntry "B" "t2"] [mkTextEntry "A" "t1"] []
    (mkTextEntry "B" "t2") 0 (by decide) (by decide) (by decide) (by decide)).1
  exact h3.trans (by decide)

end ClipHist
